import Mathlib

/-
Shallow embedding of the transaction-replay engine in src/src/main.rs.

Modelling decisions:
* `rust_decimal::Decimal` values are modelled as `ℚ`: `Decimal` arithmetic
  (`+`, `-`, `<=`) is exact, so addition, subtraction and comparison agree
  with rational arithmetic; `round_dp(4)` (banker's rounding, the default
  `MidpointNearestEven` strategy) is modelled by `round_dp4` below, and
  `normalize()` only trims trailing zeros of the textual form without
  changing the value, so emitted values are compared as rationals.
* `u16` client ids and `u32` transaction ids are modelled as `Nat`: the
  program only ever compares them for equality, never does arithmetic on
  them, so wrap-around cannot be observed.
* `HashMap` is modelled as an association list with in-place overwrite
  (`upsert`): `insert` on a present key replaces the value, on an absent
  key adds a binding; `get`/`get_mut` is `lookup`.
* Rows coming from the record source are `Row` values; `serde(default)`
  initialises the `is_disputed` field of a parsed `Tx` to `false`
  (the csv input has no such column), which `Row.toTx` reflects.
-/

namespace TxEngine

inductive TxAction where
  | DEPOSIT
  | WITHDRAWAL
  | DISPUTE
  | RESOLVE
  | CHARGEBACK
deriving DecidableEq

structure Tx where
  action : TxAction
  client : Nat
  tx : Nat
  amount : Option ℚ
  is_disputed : Bool
deriving DecidableEq

/-- `Tx::is_disputable`: only deposits may be disputed. -/
def Tx.is_disputable (t : Tx) : Bool :=
  match t.action with
  | TxAction.DEPOSIT => true
  | _ => false

structure Account where
  client : Nat
  available : ℚ
  held : ℚ
  is_locked : Bool
deriving DecidableEq

def Account.total (a : Account) : ℚ := a.available + a.held

/-- `Account::deposit`. -/
def Account.deposit (a : Account) (amount : Option ℚ) : Account :=
  if a.is_locked then a
  else
    match amount with
    | some v => { a with available := a.available + v }
    | none => a

/-- `Account::withdraw`. -/
def Account.withdraw (a : Account) (amount : Option ℚ) : Account :=
  if a.is_locked then a
  else
    match amount with
    | some v => if v ≤ a.available then { a with available := a.available - v } else a
    | none => a

/-- `Account::hold` (note: not gated on `is_locked` in the source). -/
def Account.hold (a : Account) (amount : Option ℚ) : Account :=
  match amount with
  | some v => { a with available := a.available - v, held := a.held + v }
  | none => a

/-- `Account::release` (note: not gated on `is_locked` in the source). -/
def Account.release (a : Account) (amount : Option ℚ) : Account :=
  match amount with
  | some v => { a with available := a.available + v, held := a.held - v }
  | none => a

/-- `Account::chargeback` (note: not gated on `is_locked` in the source). -/
def Account.chargeback (a : Account) (amount : Option ℚ) : Account :=
  match amount with
  | some v => { a with held := a.held - v, is_locked := true }
  | none => a

/-- Association-list lookup, modelling `HashMap::get`. -/
def lookup {α : Type} : List (Nat × α) → Nat → Option α
  | [], _ => none
  | (k, v) :: t, k' => if k' = k then some v else lookup t k'

/-- Association-list insert-or-overwrite, modelling `HashMap::insert` and
`get_mut`-followed-by-mutation. -/
def upsert {α : Type} : List (Nat × α) → Nat → α → List (Nat × α)
  | [], k, v => [(k, v)]
  | (k', v') :: t, k, v => if k = k' then (k, v) :: t else (k', v') :: upsert t k v

structure EngineState where
  accounts : List (Nat × Account)
  txs : List (Nat × Tx)
deriving DecidableEq

/-- `ensure_account`. -/
def ensure_account (client : Nat) (accounts : List (Nat × Account)) :
    List (Nat × Account) :=
  match lookup accounts client with
  | some _ => accounts
  | none => upsert accounts client
      { client := client, available := 0, held := 0, is_locked := false }

/-- `handle_dispute_action`, returning the updated account and index entry. -/
def handle_dispute_action (account : Account) (disputed_tx : Tx)
    (action : TxAction) : Account × Tx :=
  match action with
  | TxAction.DISPUTE =>
      if disputed_tx.is_disputed then (account, disputed_tx)
      else (account.hold disputed_tx.amount,
            { disputed_tx with is_disputed := true })
  | TxAction.RESOLVE =>
      if disputed_tx.is_disputed then
        (account.release disputed_tx.amount, { disputed_tx with is_disputed := false })
      else (account, disputed_tx)
  | TxAction.CHARGEBACK =>
      if disputed_tx.is_disputed then
        (account.chargeback disputed_tx.amount, { disputed_tx with is_disputed := false })
      else (account, disputed_tx)
  | _ => (account, disputed_tx)

/-- `process_tx` (the `Result` is always `Ok`, so the embedding is total). -/
def process_tx (t : Tx) (s : EngineState) : EngineState :=
  let accounts := ensure_account t.client s.accounts
  match lookup accounts t.client with
  | none => { accounts := accounts, txs := s.txs }
  | some account =>
    match t.action with
    | TxAction.DEPOSIT =>
        { accounts := upsert accounts t.client (account.deposit t.amount), txs := s.txs }
    | TxAction.WITHDRAWAL =>
        { accounts := upsert accounts t.client (account.withdraw t.amount), txs := s.txs }
    | _ =>
      match lookup s.txs t.tx with
      | none => { accounts := accounts, txs := s.txs }
      | some disputed_tx =>
        if disputed_tx.is_disputable ∧ disputed_tx.client = t.client then
          let p := handle_dispute_action account disputed_tx t.action
          { accounts := upsert accounts t.client p.1, txs := upsert s.txs t.tx p.2 }
        else { accounts := accounts, txs := s.txs }

/-- An input row as yielded by the record source. -/
structure Row where
  action : TxAction
  client : Nat
  tx : Nat
  amount : Option ℚ
deriving DecidableEq

/-- Deserialisation of a row: `serde(default)` sets `is_disputed := false`. -/
def Row.toTx (r : Row) : Tx :=
  { action := r.action, client := r.client, tx := r.tx,
    amount := r.amount, is_disputed := false }

/-- One iteration of the loop body of `balance_accounts`. -/
def replay_step (s : EngineState) (r : Row) : EngineState :=
  let t := r.toTx
  let s1 := process_tx t s
  if t.is_disputable then { s1 with txs := upsert s1.txs t.tx t } else s1

/-- Replay a list of rows from an arbitrary state. -/
def replay (rows : List Row) (s : EngineState) : EngineState :=
  rows.foldl replay_step s

/-- `balance_accounts`: replay the whole input from the empty state. -/
def balance_accounts (rows : List Row) : EngineState :=
  replay rows { accounts := [], txs := [] }

/-- Floor of a rational (its numerator floor-divided by its denominator). -/
def ratFloor (q : ℚ) : ℤ := q.num.fdiv (q.den : ℤ)

/-- Round a rational to the nearest integer, ties to even: the
`MidpointNearestEven` strategy that `Decimal::round_dp` uses by default. -/
def roundHalfEven (x : ℚ) : ℤ :=
  let f := ratFloor x
  let r := x - (f : ℚ)
  if r < 1 / 2 then f
  else if 1 / 2 < r then f + 1
  else if f % 2 = 0 then f else f + 1

/-- `Decimal::round_dp(4)`: round to 4 fractional digits, banker's rounding.
`normalize()` only trims trailing zeros of the textual form, leaving the
value unchanged, so an emitted field is modelled by its rounded value. -/
def round_dp4 (q : ℚ) : ℚ := (roundHalfEven (q * 10000) : ℚ) / 10000

/-- The row emitted for an account by `impl Serialize for Account`. -/
structure EmittedAccount where
  client : Nat
  available : ℚ
  held : ℚ
  total : ℚ
  locked : Bool
deriving DecidableEq

/-- `impl Serialize for Account`, as the emitted field values. -/
def serializeAccount (a : Account) : EmittedAccount :=
  { client := a.client,
    available := round_dp4 a.available,
    held := round_dp4 a.held,
    total := round_dp4 a.total,
    locked := a.is_locked }

/-- Amount of an index entry, `none` counting as zero. -/
def amtOf (t : Tx) : ℚ := t.amount.getD 0

/-- Contribution of an index entry to a client's actively disputed sum. -/
def contrib (t : Tx) (c : Nat) : ℚ :=
  if t.client = c ∧ t.is_disputed = true then amtOf t else 0

/-- Sum of the amounts of the ledger-index entries for client `c` whose
`is_disputed` flag is currently true. -/
def heldSum (m : List (Nat × Tx)) (c : Nat) : ℚ :=
  (m.map (fun p => contrib p.2 c)).sum

/-- The held funds of client `c`, zero when no account exists. -/
def heldOf (m : List (Nat × Account)) (c : Nat) : ℚ :=
  match lookup m c with
  | some a => a.held
  | none => 0

/-- The available funds of client `c`, zero when no account exists. -/
def availOf (m : List (Nat × Account)) (c : Nat) : ℚ :=
  match lookup m c with
  | some a => a.available
  | none => 0

/-- The lock flag of client `c`, false when no account exists. -/
def lockedOf (m : List (Nat × Account)) (c : Nat) : Bool :=
  match lookup m c with
  | some a => a.is_locked
  | none => false

def Row.isDeposit (r : Row) : Bool :=
  match r.action with
  | TxAction.DEPOSIT => true
  | _ => false

def Row.isWithdrawal (r : Row) : Bool :=
  match r.action with
  | TxAction.WITHDRAWAL => true
  | _ => false

def Row.isDisputeLike (r : Row) : Bool :=
  match r.action with
  | TxAction.DISPUTE => true
  | TxAction.RESOLVE => true
  | TxAction.CHARGEBACK => true
  | _ => false

/-- Transaction ids of the DEPOSIT rows of the input. -/
def depositIds (rows : List Row) : List Nat :=
  (rows.filter Row.isDeposit).map Row.tx

/-- Transaction ids of the DEPOSIT and WITHDRAWAL rows of the input. -/
def dwIds (rows : List Row) : List Nat :=
  (rows.filter (fun r => r.isDeposit || r.isWithdrawal)).map Row.tx

/-- Sum of the amounts of client `c`'s DEPOSIT rows. -/
def sumDeposits (rows : List Row) (c : Nat) : ℚ :=
  (rows.map (fun r =>
    if r.client = c ∧ r.isDeposit = true then r.amount.getD 0 else 0)).sum

def keys {α : Type} (m : List (Nat × α)) : List Nat := m.map Prod.fst

/-- No DISPUTE/RESOLVE/CHARGEBACK row references a deposit appearing later. -/
def NoForwardRef : List Row → Prop
  | [] => True
  | r :: t => (r.isDisputeLike = true → r.tx ∉ depositIds t) ∧ NoForwardRef t

/-- All input amounts are multiples of 0.0001 (at most 4 fractional digits). -/
def Dp4 (q : ℚ) : Prop := ∃ n : ℤ, q = (n : ℚ) / 10000

/-- Modelled from the spec (§4.3 step 3 alternative): the eager pre-pass
that inserts every deposit into the ledger index before replay begins. -/
def insertDeposits (rows : List Row) (m : List (Nat × Tx)) : List (Nat × Tx) :=
  rows.foldl (fun acc r => if r.isDeposit then upsert acc r.tx r.toTx else acc) m

/-- Modelled from the spec: one replay step of the eager variant (no
insertion, the index was prebuilt). -/
def eager_step (s : EngineState) (r : Row) : EngineState := process_tx r.toTx s

/-- Modelled from the spec: replay with an eagerly prebuilt ledger index. -/
def eager_balance_accounts (rows : List Row) : EngineState :=
  rows.foldl eager_step { accounts := [], txs := insertDeposits rows [] }

/-! ### Association-list lemmas -/

theorem lookup_upsert_self {α : Type} (m : List (Nat × α)) (k : Nat) (v : α) :
    lookup (upsert m k v) k = some v := by
  induction m with
  | nil => simp [upsert, lookup]
  | cons p t ih =>
    obtain ⟨a, b⟩ := p
    by_cases h : k = a
    · simp [upsert, h, lookup]
    · simp [upsert, h, lookup, ih, Ne.symm h]

theorem lookup_upsert_ne {α : Type} (m : List (Nat × α)) (k k' : Nat) (v : α)
    (h : k' ≠ k) : lookup (upsert m k v) k' = lookup m k' := by
  induction m with
  | nil => simp [upsert, lookup, h]
  | cons p t ih =>
    obtain ⟨a, b⟩ := p
    by_cases hk : k = a
    · subst hk
      simp [upsert, lookup, h]
    · by_cases hk' : k' = a
      · simp [upsert, hk, lookup, hk']
      · simp [upsert, hk, lookup, hk', ih]

theorem upsert_lookup_eq {α : Type} (m : List (Nat × α)) (k : Nat) (v : α)
    (h : lookup m k = some v) : upsert m k v = m := by
  induction m with
  | nil => simp [lookup] at h
  | cons p t ih =>
    obtain ⟨a, b⟩ := p
    by_cases hk : k = a
    · subst hk
      simp [lookup] at h
      simp [upsert, h]
    · simp [lookup, hk] at h
      simp [upsert, hk, ih h]

theorem upsert_upsert_same {α : Type} (m : List (Nat × α)) (k : Nat) (v w : α) :
    upsert (upsert m k v) k w = upsert m k w := by
  induction m with
  | nil => simp [upsert]
  | cons p t ih =>
    obtain ⟨a, b⟩ := p
    by_cases hk : k = a
    · simp [upsert, hk]
    · simp [upsert, hk, ih]

theorem upsert_upsert_comm {α : Type} (m : List (Nat × α)) (k1 k2 : Nat)
    (v1 v2 w : α) (h : lookup m k1 = some w) (hne : k1 ≠ k2) :
    upsert (upsert m k1 v1) k2 v2 = upsert (upsert m k2 v2) k1 v1 := by
  induction m with
  | nil => simp [lookup] at h
  | cons p t ih =>
    obtain ⟨a, b⟩ := p
    by_cases h1 : k1 = a
    · subst h1
      simp [upsert, Ne.symm hne, hne]
    · by_cases h2 : k2 = a
      · subst h2
        simp [upsert, h1, hne]
      · simp [lookup, h1] at h
        simp [upsert, h1, h2, ih h]

theorem keys_nil {α : Type} : keys ([] : List (Nat × α)) = [] := rfl

theorem keys_cons {α : Type} (a : Nat) (b : α) (t : List (Nat × α)) :
    keys ((a, b) :: t) = a :: keys t := rfl

theorem lookup_eq_none_of_not_mem_keys {α : Type} (m : List (Nat × α)) (k : Nat)
    (h : k ∉ keys m) : lookup m k = none := by
  induction m with
  | nil => simp [lookup]
  | cons p t ih =>
    obtain ⟨a, b⟩ := p
    rw [keys_cons] at h
    simp only [List.mem_cons, not_or] at h
    simp [lookup, h.1, ih h.2]

theorem mem_keys_of_lookup {α : Type} (m : List (Nat × α)) (k : Nat) (v : α)
    (h : lookup m k = some v) : k ∈ keys m := by
  induction m with
  | nil => simp [lookup] at h
  | cons p t ih =>
    obtain ⟨a, b⟩ := p
    rw [keys_cons]
    by_cases hk : k = a
    · simp [hk]
    · simp [lookup, hk] at h
      simp [ih h]

theorem keys_upsert_of_mem {α : Type} (m : List (Nat × α)) (k : Nat) (v : α)
    (h : k ∈ keys m) : keys (upsert m k v) = keys m := by
  induction m with
  | nil => simp [keys_nil] at h
  | cons p t ih =>
    obtain ⟨a, b⟩ := p
    rw [keys_cons] at h
    by_cases hk : k = a
    · simp [upsert, hk, keys_cons]
    · simp only [List.mem_cons] at h
      rcases h with h | h
      · exact absurd h hk
      · simp [upsert, hk, keys_cons, ih h]

theorem keys_upsert_of_not_mem {α : Type} (m : List (Nat × α)) (k : Nat) (v : α)
    (h : k ∉ keys m) : keys (upsert m k v) = keys m ++ [k] := by
  induction m with
  | nil => simp [upsert, keys_nil, keys_cons]
  | cons p t ih =>
    obtain ⟨a, b⟩ := p
    rw [keys_cons] at h
    simp only [List.mem_cons, not_or] at h
    simp [upsert, h.1, keys_cons, ih h.2]

/-! ### `ensure_account` lemmas -/

/-- The account of client `c`, a zero-balance fresh one when absent. -/
def acctOr (m : List (Nat × Account)) (c : Nat) : Account :=
  (lookup m c).getD { client := c, available := 0, held := 0, is_locked := false }

theorem ensure_of_some (m : List (Nat × Account)) (c : Nat) (a : Account)
    (h : lookup m c = some a) : ensure_account c m = m := by
  simp [ensure_account, h]

theorem lookup_ensure_self (c : Nat) (m : List (Nat × Account)) :
    lookup (ensure_account c m) c = some (acctOr m c) := by
  cases h : lookup m c with
  | none => simp [ensure_account, h, acctOr, lookup_upsert_self]
  | some a => simp [ensure_account, h, acctOr]

theorem lookup_ensure_ne (c c' : Nat) (m : List (Nat × Account)) (h : c' ≠ c) :
    lookup (ensure_account c m) c' = lookup m c' := by
  cases hm : lookup m c with
  | none => simp [ensure_account, hm, lookup_upsert_ne _ _ _ _ h]
  | some a => simp [ensure_account, hm]

theorem ensure_idem (c : Nat) (m : List (Nat × Account)) :
    ensure_account c (ensure_account c m) = ensure_account c m := by
  apply ensure_of_some
  exact lookup_ensure_self c m

theorem ensure_upsert (c : Nat) (m : List (Nat × Account)) (a : Account) :
    ensure_account c (upsert m c a) = upsert m c a := by
  apply ensure_of_some
  exact lookup_upsert_self m c a

/-! ### Observable lemmas -/

theorem heldOf_eq_some (m : List (Nat × Account)) (c : Nat) (a : Account)
    (h : lookup m c = some a) : heldOf m c = a.held := by
  simp [heldOf, h]

theorem availOf_eq_some (m : List (Nat × Account)) (c : Nat) (a : Account)
    (h : lookup m c = some a) : availOf m c = a.available := by
  simp [availOf, h]

theorem lockedOf_eq_some (m : List (Nat × Account)) (c : Nat) (a : Account)
    (h : lookup m c = some a) : lockedOf m c = a.is_locked := by
  simp [lockedOf, h]

theorem heldOf_congr (m m' : List (Nat × Account)) (c : Nat)
    (h : lookup m c = lookup m' c) : heldOf m c = heldOf m' c := by
  unfold heldOf
  rw [h]

theorem availOf_congr (m m' : List (Nat × Account)) (c : Nat)
    (h : lookup m c = lookup m' c) : availOf m c = availOf m' c := by
  unfold availOf
  rw [h]

theorem lockedOf_congr (m m' : List (Nat × Account)) (c : Nat)
    (h : lookup m c = lookup m' c) : lockedOf m c = lockedOf m' c := by
  unfold lockedOf
  rw [h]

theorem acctOr_available (m : List (Nat × Account)) (c : Nat) :
    (acctOr m c).available = availOf m c := by
  cases h : lookup m c <;> simp [acctOr, availOf, h]

theorem acctOr_held (m : List (Nat × Account)) (c : Nat) :
    (acctOr m c).held = heldOf m c := by
  cases h : lookup m c <;> simp [acctOr, heldOf, h]

theorem acctOr_is_locked (m : List (Nat × Account)) (c : Nat) :
    (acctOr m c).is_locked = lockedOf m c := by
  cases h : lookup m c <;> simp [acctOr, lockedOf, h]

theorem heldOf_ensure (c c' : Nat) (m : List (Nat × Account)) :
    heldOf (ensure_account c m) c' = heldOf m c' := by
  by_cases hc : c' = c
  · subst hc
    rw [heldOf_eq_some _ _ _ (lookup_ensure_self c' m), acctOr_held]
  · exact heldOf_congr _ _ _ (lookup_ensure_ne _ _ _ hc)

/-! ### Shape lemmas for `replay_step` -/

theorem replay_step_deposit (s : EngineState) (r : Row)
    (h : r.action = TxAction.DEPOSIT) :
    replay_step s r =
      { accounts := upsert (ensure_account r.client s.accounts) r.client
          ((acctOr s.accounts r.client).deposit r.amount),
        txs := upsert s.txs r.tx r.toTx } := by
  simp [replay_step, process_tx, Row.toTx, Tx.is_disputable, h,
    lookup_ensure_self]

theorem replay_step_withdrawal (s : EngineState) (r : Row)
    (h : r.action = TxAction.WITHDRAWAL) :
    replay_step s r =
      { accounts := upsert (ensure_account r.client s.accounts) r.client
          ((acctOr s.accounts r.client).withdraw r.amount),
        txs := s.txs } := by
  simp [replay_step, process_tx, Row.toTx, Tx.is_disputable, h,
    lookup_ensure_self]

theorem replay_step_dispute_like (s : EngineState) (r : Row)
    (h : r.isDisputeLike = true) :
    replay_step s r =
      match lookup s.txs r.tx with
      | none => { accounts := ensure_account r.client s.accounts, txs := s.txs }
      | some e =>
        if e.is_disputable = true ∧ e.client = r.client then
          { accounts := upsert (ensure_account r.client s.accounts) r.client
              (handle_dispute_action (acctOr s.accounts r.client) e r.action).1,
            txs := upsert s.txs r.tx
              (handle_dispute_action (acctOr s.accounts r.client) e r.action).2 }
        else { accounts := ensure_account r.client s.accounts, txs := s.txs } := by
  cases hl : lookup s.txs r.tx with
  | none =>
    cases hr : r.action <;>
      simp_all [replay_step, process_tx, Row.toTx, Tx.is_disputable,
        Row.isDisputeLike, lookup_ensure_self, hl]
  | some e =>
    cases hr : r.action <;>
      simp_all [replay_step, process_tx, Row.toTx, Tx.is_disputable,
        Row.isDisputeLike, lookup_ensure_self, hl]

/-! ### Field behaviour of the account operations -/

theorem deposit_held (a : Account) (amt : Option ℚ) :
    (a.deposit amt).held = a.held := by
  cases hl : a.is_locked <;> cases amt <;> simp [Account.deposit, hl]

theorem deposit_is_locked (a : Account) (amt : Option ℚ) :
    (a.deposit amt).is_locked = a.is_locked := by
  cases hl : a.is_locked <;> cases amt <;> simp [Account.deposit, hl]

theorem deposit_client (a : Account) (amt : Option ℚ) :
    (a.deposit amt).client = a.client := by
  cases hl : a.is_locked <;> cases amt <;> simp [Account.deposit, hl]

theorem withdraw_held (a : Account) (amt : Option ℚ) :
    (a.withdraw amt).held = a.held := by
  unfold Account.withdraw
  split
  · rfl
  · cases amt with
    | none => rfl
    | some v =>
      dsimp only
      split <;> rfl

theorem withdraw_is_locked (a : Account) (amt : Option ℚ) :
    (a.withdraw amt).is_locked = a.is_locked := by
  unfold Account.withdraw
  split
  · rfl
  · cases amt with
    | none => rfl
    | some v =>
      dsimp only
      split <;> rfl

theorem deposit_of_locked (a : Account) (amt : Option ℚ) (h : a.is_locked = true) :
    a.deposit amt = a := by
  simp [Account.deposit, h]

theorem withdraw_of_locked (a : Account) (amt : Option ℚ) (h : a.is_locked = true) :
    a.withdraw amt = a := by
  simp [Account.withdraw, h]

theorem is_disputable_iff (t : Tx) :
    t.is_disputable = true ↔ t.action = TxAction.DEPOSIT := by
  cases h : t.action <;> simp [Tx.is_disputable, h]

/-! ### Concrete rows used in counterexamples and witnesses -/

def depositRow (c t : Nat) (a : ℚ) : Row :=
  { action := TxAction.DEPOSIT, client := c, tx := t, amount := some a }

def withdrawalRow (c t : Nat) (a : ℚ) : Row :=
  { action := TxAction.WITHDRAWAL, client := c, tx := t, amount := some a }

def disputeRow (c t : Nat) : Row :=
  { action := TxAction.DISPUTE, client := c, tx := t, amount := none }

def resolveRow (c t : Nat) : Row :=
  { action := TxAction.RESOLVE, client := c, tx := t, amount := none }

def chargebackRow (c t : Nat) : Row :=
  { action := TxAction.CHARGEBACK, client := c, tx := t, amount := none }

/-! ### C1 -/

/-- Deposit, dispute and charge back tx 1, locking client 1's account; the
fourth row is a deposit that the lock silences but that still enters the
ledger index. -/
def lockRows : List Row :=
  [depositRow 1 1 5, disputeRow 1 1, chargebackRow 1 1, depositRow 1 2 3]

/-- C1 counterexample: after the account of client 1 is locked, a DISPUTE of
the post-lock deposit still moves funds (`Account::hold` is not gated on
`is_locked`), changing `available` from 0 to -3 and `held` from 0 to 3. -/
theorem locked_account_mutated_by_dispute :
    lockedOf (balance_accounts lockRows).accounts 1 = true ∧
    lookup (balance_accounts lockRows).accounts 1 =
      some { client := 1, available := 0, held := 0, is_locked := true } ∧
    lookup (balance_accounts (lockRows ++ [disputeRow 1 2])).accounts 1 =
      some { client := 1, available := -3, held := 3, is_locked := true } ∧
    lookup (balance_accounts (lockRows ++ [disputeRow 1 2])).accounts 1 ≠
      lookup (balance_accounts lockRows).accounts 1 :=
  of_decide_eq_true (by with_unfolding_all rfl)

/-- C1 amended: once an account is locked, any further DEPOSIT or WITHDRAWAL
referencing that client leaves the account table unchanged; DISPUTE, RESOLVE
and CHARGEBACK rows are not gated on the lock and may still change
`available` and `held`. -/
theorem locked_account_deposit_withdrawal_no_op (s : EngineState) (r : Row)
    (acc : Account) (hacc : lookup s.accounts r.client = some acc)
    (hlock : acc.is_locked = true)
    (hact : r.action = TxAction.DEPOSIT ∨ r.action = TxAction.WITHDRAWAL) :
    (replay_step s r).accounts = s.accounts := by
  have hens : ensure_account r.client s.accounts = s.accounts :=
    ensure_of_some _ _ _ hacc
  have hao : acctOr s.accounts r.client = acc := by simp [acctOr, hacc]
  rcases hact with h | h
  · rw [replay_step_deposit s r h]
    simp only [hens, hao, deposit_of_locked acc r.amount hlock]
    exact upsert_lookup_eq _ _ _ hacc
  · rw [replay_step_withdrawal s r h]
    simp only [hens, hao, withdraw_of_locked acc r.amount hlock]
    exact upsert_lookup_eq _ _ _ hacc

/-- C1 amended, witness: a deposit for the locked client 1 leaves the
account table unchanged. -/
theorem locked_account_deposit_withdrawal_no_op_witness :
    lookup (balance_accounts lockRows).accounts 1 =
      some { client := 1, available := 0, held := 0, is_locked := true } ∧
    (replay_step (balance_accounts lockRows) (depositRow 1 3 7)).accounts =
      (balance_accounts lockRows).accounts :=
  ⟨of_decide_eq_true (by with_unfolding_all rfl),
   locked_account_deposit_withdrawal_no_op (balance_accounts lockRows)
     (depositRow 1 3 7) { client := 1, available := 0, held := 0, is_locked := true }
     (of_decide_eq_true (by with_unfolding_all rfl)) rfl (Or.inl rfl)⟩

/-! ### C2 -/

def c2Rows : List Row := [depositRow 1 1 1, disputeRow 1 1]

/-- C2 counterexample: for deposit tx=1 amount=1 client=1 followed by
dispute tx=1 client=1, the final available is 0, not -1 (the spec's quoted
values match the repository's unit test, which has a withdrawal of 1
between the deposit and the dispute). -/
theorem deposit_dispute_state_differs_from_claim :
    (lookup (balance_accounts c2Rows).accounts 1).map Account.available ≠
      some (-1) :=
  of_decide_eq_true (by with_unfolding_all rfl)

/-- C2 amended: for the two-transaction input DEPOSIT(tx=1, amount=1,
client=1) then DISPUTE(tx=1, client=1), the final state of client 1 is
available == 0, held == 1, total == 1, locked == false. -/
theorem deposit_dispute_final_state :
    lookup (balance_accounts c2Rows).accounts 1 =
      some { client := 1, available := 0, held := 1, is_locked := false } ∧
    (lookup (balance_accounts c2Rows).accounts 1).map Account.total = some 1 :=
  of_decide_eq_true (by with_unfolding_all rfl)

/-! ### C7 -/

/-- C7 counterexample: a DISPUTE of a transaction id absent from the ledger
index, arriving for a client that has no account yet, creates a fresh
zero-balance account (`ensure_account` runs before the eligibility checks),
so the account table does not stay unchanged. -/
theorem ineligible_dispute_creates_account :
    (balance_accounts [disputeRow 1 1]).accounts =
      [(1, { client := 1, available := 0, held := 0, is_locked := false })] ∧
    (balance_accounts [disputeRow 1 1]).accounts ≠
      (balance_accounts []).accounts :=
  of_decide_eq_true (by with_unfolding_all rfl)

/-- C7 amended: an ineligible DISPUTE/RESOLVE/CHARGEBACK row (id absent from
the index, entry not a deposit, client mismatch, re-dispute, or
resolve/chargeback of a non-disputed entry) leaves the ledger index
unchanged and changes the account table at most by creating a zero-balance
account for the row's client; every existing account is untouched and no
error is produced (the embedding is total). -/
theorem ineligible_dispute_action_no_op (s : EngineState) (r : Row)
    (hact : r.action = TxAction.DISPUTE ∨ r.action = TxAction.RESOLVE ∨
      r.action = TxAction.CHARGEBACK)
    (hinelig : lookup s.txs r.tx = none ∨
      ∃ e, lookup s.txs r.tx = some e ∧
        (e.action ≠ TxAction.DEPOSIT ∨ e.client ≠ r.client ∨
          (r.action = TxAction.DISPUTE ∧ e.is_disputed = true) ∨
          ((r.action = TxAction.RESOLVE ∨ r.action = TxAction.CHARGEBACK) ∧
            e.is_disputed = false))) :
    (replay_step s r).txs = s.txs ∧
    (replay_step s r).accounts = ensure_account r.client s.accounts := by
  have hdl : r.isDisputeLike = true := by
    rcases hact with h | h | h <;> simp [Row.isDisputeLike, h]
  rcases hinelig with hnone | ⟨e, hsome, hcond⟩
  · simp [replay_step_dispute_like s r hdl, hnone]
  · simp only [replay_step_dispute_like s r hdl, hsome]
    rcases hcond with hnd | hcl | ⟨hdisp, hd⟩ | ⟨hrc, hd⟩
    · have hne : ¬ (e.is_disputable = true ∧ e.client = r.client) := by
        rintro ⟨h1, h2⟩
        exact hnd ((is_disputable_iff e).mp h1)
      rw [if_neg hne]
      exact ⟨rfl, rfl⟩
    · have hne : ¬ (e.is_disputable = true ∧ e.client = r.client) := by
        rintro ⟨h1, h2⟩
        exact hcl h2
      rw [if_neg hne]
      exact ⟨rfl, rfl⟩
    · by_cases hel : e.is_disputable = true ∧ e.client = r.client
      · rw [if_pos hel]
        have hh : handle_dispute_action (acctOr s.accounts r.client) e r.action =
            (acctOr s.accounts r.client, e) := by
          simp [handle_dispute_action, hdisp, hd]
        rw [hh]
        refine ⟨upsert_lookup_eq _ _ _ hsome, ?_⟩
        exact upsert_lookup_eq _ _ _ (lookup_ensure_self r.client s.accounts)
      · rw [if_neg hel]
        exact ⟨rfl, rfl⟩
    · by_cases hel : e.is_disputable = true ∧ e.client = r.client
      · rw [if_pos hel]
        have hh : handle_dispute_action (acctOr s.accounts r.client) e r.action =
            (acctOr s.accounts r.client, e) := by
          rcases hrc with h | h <;> simp [handle_dispute_action, h, hd]
        rw [hh]
        refine ⟨upsert_lookup_eq _ _ _ hsome, ?_⟩
        exact upsert_lookup_eq _ _ _ (lookup_ensure_self r.client s.accounts)
      · rw [if_neg hel]
        exact ⟨rfl, rfl⟩

/-- C7 amended, witness: resolving the non-disputed deposit tx 1 leaves the
index unchanged and only bootstraps the (already existing) account. -/
theorem ineligible_dispute_action_no_op_witness :
    ((resolveRow 1 1).action = TxAction.DISPUTE ∨
      (resolveRow 1 1).action = TxAction.RESOLVE ∨
      (resolveRow 1 1).action = TxAction.CHARGEBACK) ∧
    (replay_step (balance_accounts [depositRow 1 1 5]) (resolveRow 1 1)).txs =
      (balance_accounts [depositRow 1 1 5]).txs ∧
    (replay_step (balance_accounts [depositRow 1 1 5]) (resolveRow 1 1)).accounts =
      ensure_account 1 (balance_accounts [depositRow 1 1 5]).accounts :=
  ⟨Or.inr (Or.inl rfl),
   ineligible_dispute_action_no_op (balance_accounts [depositRow 1 1 5])
     (resolveRow 1 1) (Or.inr (Or.inl rfl))
     (Or.inr ⟨(depositRow 1 1 5).toTx,
       of_decide_eq_true (by with_unfolding_all rfl),
       Or.inr (Or.inr (Or.inr ⟨Or.inl rfl, rfl⟩))⟩)⟩

/-! ### C6 -/

/-- C6: a WITHDRAWAL whose amount strictly exceeds the account's available
balance leaves the whole engine state (hence every field of that account)
unchanged; insufficient funds is a silent no-op, never an error. -/
theorem withdrawal_insufficient_funds_no_op (s : EngineState) (r : Row)
    (acc : Account) (v : ℚ)
    (hacc : lookup s.accounts r.client = some acc)
    (hact : r.action = TxAction.WITHDRAWAL)
    (hamt : r.amount = some v)
    (hgt : acc.available < v) :
    replay_step s r = s := by
  rw [replay_step_withdrawal s r hact]
  have hens : ensure_account r.client s.accounts = s.accounts :=
    ensure_of_some _ _ _ hacc
  have hao : acctOr s.accounts r.client = acc := by simp [acctOr, hacc]
  have hw : acc.withdraw r.amount = acc := by
    rw [hamt]
    cases hl : acc.is_locked <;> simp [Account.withdraw, hl, not_le.mpr hgt]
  rw [hens, hao, hw, upsert_lookup_eq _ _ _ hacc]

/-- C6 witness: withdrawing 6 from an account holding 5 changes nothing. -/
theorem withdrawal_insufficient_funds_no_op_witness :
    lookup (balance_accounts [depositRow 1 1 5]).accounts 1 =
      some { client := 1, available := 5, held := 0, is_locked := false } ∧
    ((5 : ℚ) < 6) ∧
    replay_step (balance_accounts [depositRow 1 1 5]) (withdrawalRow 1 2 6) =
      balance_accounts [depositRow 1 1 5] :=
  ⟨of_decide_eq_true (by with_unfolding_all rfl),
   by norm_num,
   withdrawal_insufficient_funds_no_op (balance_accounts [depositRow 1 1 5])
     (withdrawalRow 1 2 6)
     { client := 1, available := 5, held := 0, is_locked := false } 6
     (of_decide_eq_true (by with_unfolding_all rfl)) rfl rfl (by norm_num)⟩

/-! ### C10 -/

/-- C10: a DEPOSIT row whose tx id is already indexed overwrites the entry
with the freshly parsed record (whose `is_disputed` is false); a previously
disputed entry's status is discarded with no release or chargeback, every
client's held funds stay unchanged, and no index entry for that id remains
disputed. -/
theorem deposit_overwrites_index_entry (s : EngineState) (r : Row) (e : Tx)
    (hact : r.action = TxAction.DEPOSIT)
    (hent : lookup s.txs r.tx = some e)
    (hdisp : e.is_disputed = true) :
    lookup (replay_step s r).txs r.tx = some r.toTx ∧
    (r.toTx).is_disputed = false ∧
    (∀ k, k ≠ r.tx → lookup (replay_step s r).txs k = lookup s.txs k) ∧
    (∀ c, heldOf (replay_step s r).accounts c = heldOf s.accounts c) := by
  rw [replay_step_deposit s r hact]
  refine ⟨lookup_upsert_self _ _ _, rfl,
    fun k hk => lookup_upsert_ne _ _ _ _ hk, fun c => ?_⟩
  by_cases hc : c = r.client
  · subst hc
    rw [heldOf_eq_some _ _ _ (lookup_upsert_self _ _ _), deposit_held,
      acctOr_held]
  · apply heldOf_congr
    rw [lookup_upsert_ne _ _ _ _ hc, lookup_ensure_ne _ _ _ hc]

/-- C10 witness: re-depositing tx 1 while it is under dispute resets its
index entry to undisputed and leaves held funds where they are. -/
theorem deposit_overwrites_index_entry_witness :
    lookup (balance_accounts c2Rows).txs 1 =
      some { action := TxAction.DEPOSIT, client := 1, tx := 1, amount := some 1,
             is_disputed := true } ∧
    lookup (replay_step (balance_accounts c2Rows) (depositRow 1 1 2)).txs 1 =
      some (depositRow 1 1 2).toTx ∧
    ((depositRow 1 1 2).toTx).is_disputed = false ∧
    heldOf (replay_step (balance_accounts c2Rows) (depositRow 1 1 2)).accounts 1 =
      heldOf (balance_accounts c2Rows).accounts 1 :=
  ⟨of_decide_eq_true (by with_unfolding_all rfl),
   (deposit_overwrites_index_entry (balance_accounts c2Rows) (depositRow 1 1 2)
     { action := TxAction.DEPOSIT, client := 1, tx := 1, amount := some 1,
       is_disputed := true } rfl
     (of_decide_eq_true (by with_unfolding_all rfl)) rfl).1,
   rfl,
   (deposit_overwrites_index_entry (balance_accounts c2Rows) (depositRow 1 1 2)
     { action := TxAction.DEPOSIT, client := 1, tx := 1, amount := some 1,
       is_disputed := true } rfl
     (of_decide_eq_true (by with_unfolding_all rfl)) rfl).2.2.2 1⟩

/-! ### C3 -/

/-- Holding two amounts on the same account commutes. -/
theorem hold_comm (a : Account) (x y : Option ℚ) :
    (a.hold x).hold y = (a.hold y).hold x := by
  cases x with
  | none => cases y <;> rfl
  | some u =>
    cases y with
    | none => rfl
    | some v =>
      have h1 : a.available - u - v = a.available - v - u := by ring
      have h2 : a.held + u + v = a.held + v + u := by ring
      simp [Account.hold, h1, h2]

/-- The index entry produced by `handle_dispute_action` does not depend on
the account it is paired with. -/
theorem handle_dispute_snd (a b : Account) (e : Tx) (act : TxAction) :
    (handle_dispute_action a e act).2 = (handle_dispute_action b e act).2 := by
  cases act <;> by_cases h : e.is_disputed <;> simp [handle_dispute_action, h]

/-- Applying two DISPUTE transitions for independent entries to the same
account commutes. -/
theorem handle_dispute_fst_comm (a : Account) (e1 e2 : Tx) :
    (handle_dispute_action (handle_dispute_action a e1 TxAction.DISPUTE).1 e2
      TxAction.DISPUTE).1 =
    (handle_dispute_action (handle_dispute_action a e2 TxAction.DISPUTE).1 e1
      TxAction.DISPUTE).1 := by
  by_cases h1 : e1.is_disputed <;> by_cases h2 : e2.is_disputed <;>
    simp [handle_dispute_action, h1, h2, hold_comm]

/-- A DISPUTE row is eligible when its id resolves to a disputable entry of
the same client. -/
def disputeActive (s : EngineState) (c t : Nat) : Prop :=
  ∃ e, lookup s.txs t = some e ∧ e.is_disputable = true ∧ e.client = c

theorem replay_step_dispute_inactive (s : EngineState) (c t : Nat)
    (h : ¬ disputeActive s c t) :
    replay_step s (disputeRow c t) =
      { accounts := ensure_account c s.accounts, txs := s.txs } := by
  rw [replay_step_dispute_like s (disputeRow c t) rfl]
  simp only [disputeRow]
  cases hl : lookup s.txs t with
  | none => simp [hl]
  | some e =>
    simp only [hl]
    rw [if_neg]
    rintro ⟨h1, h2⟩
    exact h ⟨e, hl, h1, h2⟩

theorem replay_step_dispute_active (s : EngineState) (c t : Nat) (e : Tx)
    (he : lookup s.txs t = some e)
    (hcond : e.is_disputable = true ∧ e.client = c) :
    replay_step s (disputeRow c t) =
      { accounts := upsert (ensure_account c s.accounts) c
          (handle_dispute_action (acctOr s.accounts c) e TxAction.DISPUTE).1,
        txs := upsert s.txs t
          (handle_dispute_action (acctOr s.accounts c) e TxAction.DISPUTE).2 } := by
  rw [replay_step_dispute_like s (disputeRow c t) rfl]
  simp only [disputeRow]
  simp only [he]
  rw [if_pos hcond]

theorem acctOr_ensure (m : List (Nat × Account)) (c : Nat) :
    acctOr (ensure_account c m) c = acctOr m c := by
  unfold acctOr
  rw [lookup_ensure_self]
  rfl

theorem acctOr_upsert (m : List (Nat × Account)) (c : Nat) (a : Account) :
    acctOr (upsert m c a) c = a := by
  unfold acctOr
  rw [lookup_upsert_self]
  rfl

/-- Two DISPUTE steps for the same client and distinct transaction ids
commute. -/
theorem dispute_step_comm (s : EngineState) (c t1 t2 : Nat) (h : t1 ≠ t2) :
    replay_step (replay_step s (disputeRow c t1)) (disputeRow c t2) =
    replay_step (replay_step s (disputeRow c t2)) (disputeRow c t1) := by
  by_cases h1 : disputeActive s c t1
  · obtain ⟨e1, he1, hc1⟩ := h1
    by_cases h2 : disputeActive s c t2
    · obtain ⟨e2, he2, hc2⟩ := h2
      rw [replay_step_dispute_active s c t1 e1 he1 hc1,
          replay_step_dispute_active s c t2 e2 he2 hc2]
      rw [replay_step_dispute_active _ c t2 e2
            (by simpa using (lookup_upsert_ne s.txs t1 t2 _ (Ne.symm h)).trans he2)
            hc2,
          replay_step_dispute_active _ c t1 e1
            (by simpa using (lookup_upsert_ne s.txs t2 t1 _ h).trans he1)
            hc1]
      simp only [ensure_upsert, acctOr_upsert, upsert_upsert_same]
      rw [EngineState.mk.injEq]
      constructor
      · rw [handle_dispute_fst_comm (acctOr s.accounts c) e1 e2]
      · rw [handle_dispute_snd
            (handle_dispute_action (acctOr s.accounts c) e1 TxAction.DISPUTE).1
            (acctOr s.accounts c) e2 TxAction.DISPUTE,
          handle_dispute_snd
            (handle_dispute_action (acctOr s.accounts c) e2 TxAction.DISPUTE).1
            (acctOr s.accounts c) e1 TxAction.DISPUTE]
        exact upsert_upsert_comm s.txs t1 t2 _ _ e1 he1 h
    · rw [replay_step_dispute_active s c t1 e1 he1 hc1,
          replay_step_dispute_inactive s c t2 h2]
      rw [replay_step_dispute_inactive _ c t2
            (by
              rintro ⟨e, he, hc⟩
              rw [lookup_upsert_ne s.txs t1 t2 _ (Ne.symm h)] at he
              exact h2 ⟨e, he, hc⟩),
          replay_step_dispute_active _ c t1 e1 (by simpa using he1) (by simpa using hc1)]
      simp only [ensure_upsert, ensure_idem, acctOr_ensure]
  · by_cases h2 : disputeActive s c t2
    · obtain ⟨e2, he2, hc2⟩ := h2
      rw [replay_step_dispute_inactive s c t1 h1,
          replay_step_dispute_active s c t2 e2 he2 hc2]
      rw [replay_step_dispute_active _ c t2 e2 (by simpa using he2) (by simpa using hc2),
          replay_step_dispute_inactive _ c t1
            (by
              rintro ⟨e, he, hc⟩
              rw [lookup_upsert_ne s.txs t2 t1 _ h] at he
              exact h1 ⟨e, he, hc⟩)]
      simp only [ensure_upsert, ensure_idem, acctOr_ensure]
    · rw [replay_step_dispute_inactive s c t1 h1,
          replay_step_dispute_inactive s c t2 h2]
      rw [replay_step_dispute_inactive _ c t2 (by exact h2),
          replay_step_dispute_inactive _ c t1 (by exact h1)]

def c3RowsA : List Row := [depositRow 1 1 1, disputeRow 1 1, resolveRow 1 1]

def c3RowsB : List Row := [depositRow 1 1 1, resolveRow 1 1, disputeRow 1 1]

/-- C3 counterexample: deposit tx 1, then DISPUTE tx 1 followed by its
matching RESOLVE gives available 1 / held 0, but with the two rows swapped
the RESOLVE is a no-op (nothing is disputed yet) and the DISPUTE then holds
the funds, giving available 0 / held 1: the swap changes the final state. -/
theorem dispute_resolve_swap_changes_state :
    lookup (balance_accounts c3RowsA).accounts 1 =
      some { client := 1, available := 1, held := 0, is_locked := false } ∧
    lookup (balance_accounts c3RowsB).accounts 1 =
      some { client := 1, available := 0, held := 1, is_locked := false } ∧
    (balance_accounts c3RowsA).accounts ≠ (balance_accounts c3RowsB).accounts :=
  of_decide_eq_true (by with_unfolding_all rfl)

/-- C3 amended: swapping a DISPUTE with its matching RESOLVE can change the
final state (see the counterexample); what does hold is the other half of
the quoted spec sentence: swapping two adjacent DISPUTE rows that reference
different transaction ids but the same client never changes the final
engine state. -/
theorem adjacent_distinct_disputes_commute (pre post : List Row)
    (c t1 t2 : Nat) (h : t1 ≠ t2) :
    balance_accounts (pre ++ [disputeRow c t1, disputeRow c t2] ++ post) =
    balance_accounts (pre ++ [disputeRow c t2, disputeRow c t1] ++ post) := by
  unfold balance_accounts replay
  rw [List.foldl_append, List.foldl_append, List.foldl_append,
      List.foldl_append]
  simp only [List.foldl_cons, List.foldl_nil]
  rw [dispute_step_comm _ c t1 t2 h]

/-- C3 amended, witness: swapping the disputes of tx 1 and tx 2 after two
deposits leaves the final state unchanged. -/
theorem adjacent_distinct_disputes_commute_witness :
    (1 : Nat) ≠ 2 ∧
    balance_accounts
        ([depositRow 1 1 1, depositRow 1 2 2] ++ [disputeRow 1 1, disputeRow 1 2] ++ []) =
      balance_accounts
        ([depositRow 1 1 1, depositRow 1 2 2] ++ [disputeRow 1 2, disputeRow 1 1] ++ []) :=
  ⟨by decide,
   adjacent_distinct_disputes_commute [depositRow 1 1 1, depositRow 1 2 2] []
     1 1 2 (by decide)⟩

/-! ### C5 -/

theorem deposit_avail (a : Account) (amt : Option ℚ) (h : a.is_locked = false) :
    (a.deposit amt).available = a.available + amt.getD 0 := by
  cases amt <;> simp [Account.deposit, h]

/-- Observable effect of one DEPOSIT row on an unlocked client. -/
theorem replay_step_deposit_observables (s : EngineState) (r : Row)
    (hr : r.action = TxAction.DEPOSIT)
    (hnl : lockedOf s.accounts r.client = false) :
    (∀ c, availOf (replay_step s r).accounts c =
        availOf s.accounts c + (if r.client = c then r.amount.getD 0 else 0)) ∧
    (∀ c, heldOf (replay_step s r).accounts c = heldOf s.accounts c) ∧
    (∀ c, lockedOf (replay_step s r).accounts c = lockedOf s.accounts c) := by
  rw [replay_step_deposit s r hr]
  refine ⟨fun c => ?_, fun c => ?_, fun c => ?_⟩
  · by_cases hc : r.client = c
    · subst hc
      rw [if_pos rfl,
        availOf_eq_some _ _ _ (lookup_upsert_self _ _ _),
        deposit_avail _ _ (by rw [acctOr_is_locked]; exact hnl),
        acctOr_available]
    · rw [if_neg hc, add_zero]
      have hc2 : c ≠ r.client := fun hcc => hc hcc.symm
      apply availOf_congr
      rw [lookup_upsert_ne _ _ _ _ hc2, lookup_ensure_ne _ _ _ hc2]
  · by_cases hc : r.client = c
    · subst hc
      rw [heldOf_eq_some _ _ _ (lookup_upsert_self _ _ _), deposit_held,
        acctOr_held]
    · have hc2 : c ≠ r.client := fun hcc => hc hcc.symm
      apply heldOf_congr
      rw [lookup_upsert_ne _ _ _ _ hc2, lookup_ensure_ne _ _ _ hc2]
  · by_cases hc : r.client = c
    · subst hc
      rw [lockedOf_eq_some _ _ _ (lookup_upsert_self _ _ _), deposit_is_locked,
        acctOr_is_locked]
    · have hc2 : c ≠ r.client := fun hcc => hc hcc.symm
      apply lockedOf_congr
      rw [lookup_upsert_ne _ _ _ _ hc2, lookup_ensure_ne _ _ _ hc2]

/-- Folding a deposits-only suffix accumulates available funds and touches
neither held funds nor locks. -/
theorem replay_deposits_only (rows : List Row) :
    ∀ s : EngineState, (∀ r ∈ rows, r.action = TxAction.DEPOSIT) →
      (∀ c, lockedOf s.accounts c = false) →
      (∀ c, availOf (replay rows s).accounts c =
        availOf s.accounts c + sumDeposits rows c) ∧
      (∀ c, heldOf (replay rows s).accounts c = heldOf s.accounts c) ∧
      (∀ c, lockedOf (replay rows s).accounts c = false) := by
  induction rows with
  | nil =>
    intro s _ hnl
    refine ⟨fun c => ?_, fun c => rfl, hnl⟩
    simp [replay, sumDeposits]
  | cons r t ih =>
    intro s hdep hnl
    have hr : r.action = TxAction.DEPOSIT := hdep r (by simp)
    obtain ⟨ha, hh, hl⟩ :=
      replay_step_deposit_observables s r hr (hnl r.client)
    have hnl2 : ∀ c, lockedOf (replay_step s r).accounts c = false := by
      intro c
      rw [hl c]
      exact hnl c
    obtain ⟨iha, ihh, ihl⟩ :=
      ih (replay_step s r) (fun q hq => hdep q (by simp [hq])) hnl2
    have hstep : replay (r :: t) s = replay t (replay_step s r) := rfl
    refine ⟨fun c => ?_, fun c => ?_, fun c => ?_⟩
    · rw [hstep, iha c, ha c]
      have hsum : sumDeposits (r :: t) c =
          (if r.client = c ∧ r.isDeposit = true then r.amount.getD 0 else 0) +
            sumDeposits t c := by
        simp [sumDeposits]
      rw [hsum]
      have hd : r.isDeposit = true := by simp [Row.isDeposit, hr]
      by_cases hc : r.client = c
      · rw [if_pos hc, if_pos ⟨hc, hd⟩]
        ring
      · rw [if_neg hc, if_neg (by rintro ⟨hcc, _⟩; exact hc hcc)]
        ring
    · rw [hstep, ihh c, hh c]
    · rw [hstep, ihl c]

/-- C5: for an input consisting only of DEPOSIT rows, every account in the
final table has total equal to the sum of that client's deposit amounts and
held equal to zero. -/
theorem deposits_only_total_and_held (rows : List Row)
    (hdep : ∀ r ∈ rows, r.action = TxAction.DEPOSIT) (c : Nat) (a : Account)
    (ha : lookup (balance_accounts rows).accounts c = some a) :
    a.total = sumDeposits rows c ∧ a.held = 0 := by
  obtain ⟨h1, h2, _⟩ :=
    replay_deposits_only rows { accounts := [], txs := [] } hdep
      (fun c => rfl)
  have hv : availOf (balance_accounts rows).accounts c = sumDeposits rows c := by
    have h0 : availOf ([] : List (Nat × Account)) c = 0 := rfl
    have := h1 c
    rw [h0, zero_add] at this
    exact this
  have hh : heldOf (balance_accounts rows).accounts c = 0 := h2 c
  rw [availOf_eq_some _ _ _ ha] at hv
  rw [heldOf_eq_some _ _ _ ha] at hh
  refine ⟨?_, hh⟩
  rw [Account.total, hv, hh]
  ring

/-- C5 witness: two deposits of 2 and 3 for client 1 leave total 5, held 0. -/
theorem deposits_only_total_and_held_witness :
    (∀ r ∈ [depositRow 1 1 2, depositRow 1 2 3], r.action = TxAction.DEPOSIT) ∧
    lookup (balance_accounts [depositRow 1 1 2, depositRow 1 2 3]).accounts 1 =
      some { client := 1, available := 5, held := 0, is_locked := false } ∧
    ({ client := 1, available := 5, held := 0, is_locked := false } : Account).total =
      sumDeposits [depositRow 1 1 2, depositRow 1 2 3] 1 ∧
    ({ client := 1, available := 5, held := 0, is_locked := false } : Account).held = 0 :=
  ⟨by decide,
   of_decide_eq_true (by with_unfolding_all rfl),
   deposits_only_total_and_held [depositRow 1 1 2, depositRow 1 2 3]
     (by decide) 1 { client := 1, available := 5, held := 0, is_locked := false }
     (of_decide_eq_true (by with_unfolding_all rfl))⟩

/-! ### C8 -/

theorem dp4_zero : Dp4 0 :=
  ⟨0, by norm_num⟩

theorem dp4_add (x y : ℚ) (hx : Dp4 x) (hy : Dp4 y) : Dp4 (x + y) := by
  obtain ⟨m, rfl⟩ := hx
  obtain ⟨n, rfl⟩ := hy
  exact ⟨m + n, by push_cast; ring⟩

theorem dp4_sub (x y : ℚ) (hx : Dp4 x) (hy : Dp4 y) : Dp4 (x - y) := by
  obtain ⟨m, rfl⟩ := hx
  obtain ⟨n, rfl⟩ := hy
  exact ⟨m - n, by push_cast; ring⟩

/-- Rounding to 4 decimal places is the identity on multiples of 0.0001. -/
theorem round_dp4_of_dp4 (q : ℚ) (h : Dp4 q) : round_dp4 q = q := by
  obtain ⟨n, rfl⟩ := h
  have hx : (n : ℚ) / 10000 * 10000 = (n : ℚ) := by field_simp
  unfold round_dp4 roundHalfEven ratFloor
  rw [hx, Rat.num_intCast, Rat.den_intCast]
  norm_num [Int.fdiv_one]

theorem deposit_dp4 (a : Account) (amt : Option ℚ)
    (h1 : Dp4 a.available) (h2 : Dp4 a.held)
    (hamt : ∀ v, amt = some v → Dp4 v) :
    Dp4 (a.deposit amt).available ∧ Dp4 (a.deposit amt).held := by
  unfold Account.deposit
  split
  · exact ⟨h1, h2⟩
  · cases amt with
    | none => exact ⟨h1, h2⟩
    | some v => exact ⟨dp4_add _ _ h1 (hamt v rfl), h2⟩

theorem withdraw_dp4 (a : Account) (amt : Option ℚ)
    (h1 : Dp4 a.available) (h2 : Dp4 a.held)
    (hamt : ∀ v, amt = some v → Dp4 v) :
    Dp4 (a.withdraw amt).available ∧ Dp4 (a.withdraw amt).held := by
  unfold Account.withdraw
  split
  · exact ⟨h1, h2⟩
  · cases amt with
    | none => exact ⟨h1, h2⟩
    | some v =>
      dsimp only
      split
      · exact ⟨dp4_sub _ _ h1 (hamt v rfl), h2⟩
      · exact ⟨h1, h2⟩

theorem hold_dp4 (a : Account) (amt : Option ℚ)
    (h1 : Dp4 a.available) (h2 : Dp4 a.held)
    (hamt : ∀ v, amt = some v → Dp4 v) :
    Dp4 (a.hold amt).available ∧ Dp4 (a.hold amt).held := by
  cases amt with
  | none => exact ⟨h1, h2⟩
  | some v => exact ⟨dp4_sub _ _ h1 (hamt v rfl), dp4_add _ _ h2 (hamt v rfl)⟩

theorem release_dp4 (a : Account) (amt : Option ℚ)
    (h1 : Dp4 a.available) (h2 : Dp4 a.held)
    (hamt : ∀ v, amt = some v → Dp4 v) :
    Dp4 (a.release amt).available ∧ Dp4 (a.release amt).held := by
  cases amt with
  | none => exact ⟨h1, h2⟩
  | some v => exact ⟨dp4_add _ _ h1 (hamt v rfl), dp4_sub _ _ h2 (hamt v rfl)⟩

theorem chargeback_dp4 (a : Account) (amt : Option ℚ)
    (h1 : Dp4 a.available) (h2 : Dp4 a.held)
    (hamt : ∀ v, amt = some v → Dp4 v) :
    Dp4 (a.chargeback amt).available ∧ Dp4 (a.chargeback amt).held := by
  cases amt with
  | none => exact ⟨h1, h2⟩
  | some v => exact ⟨h1, dp4_sub _ _ h2 (hamt v rfl)⟩

theorem handle_dp4 (a : Account) (e : Tx) (act : TxAction)
    (h1 : Dp4 a.available) (h2 : Dp4 a.held)
    (hamt : ∀ v, e.amount = some v → Dp4 v) :
    Dp4 (handle_dispute_action a e act).1.available ∧
    Dp4 (handle_dispute_action a e act).1.held := by
  cases act <;> unfold handle_dispute_action <;> try exact ⟨h1, h2⟩
  · by_cases hd : e.is_disputed <;> simp only [hd, if_true, if_false]
    · exact ⟨h1, h2⟩
    · exact hold_dp4 a e.amount h1 h2 hamt
  · by_cases hd : e.is_disputed <;> simp only [hd, if_true, if_false]
    · exact release_dp4 a e.amount h1 h2 hamt
    · exact ⟨h1, h2⟩
  · by_cases hd : e.is_disputed <;> simp only [hd, if_true, if_false]
    · exact chargeback_dp4 a e.amount h1 h2 hamt
    · exact ⟨h1, h2⟩

/-- `handle_dispute_action` never changes the amount of the index entry. -/
theorem handle_amount (a : Account) (e : Tx) (act : TxAction) :
    (handle_dispute_action a e act).2.amount = e.amount := by
  cases act <;> by_cases hd : e.is_disputed <;>
    simp [handle_dispute_action, hd]

/-- Every account field and every indexed amount is a multiple of 0.0001. -/
def StateDp4 (s : EngineState) : Prop :=
  (∀ c a, lookup s.accounts c = some a → Dp4 a.available ∧ Dp4 a.held) ∧
  (∀ k e, lookup s.txs k = some e → ∀ v, e.amount = some v → Dp4 v)

theorem acctOr_dp4 (s : EngineState) (c : Nat)
    (hacc : ∀ c a, lookup s.accounts c = some a → Dp4 a.available ∧ Dp4 a.held) :
    Dp4 (acctOr s.accounts c).available ∧ Dp4 (acctOr s.accounts c).held := by
  unfold acctOr
  cases hl : lookup s.accounts c with
  | none => exact ⟨dp4_zero, dp4_zero⟩
  | some a => simpa using hacc _ _ hl

theorem replay_step_dp4 (s : EngineState) (r : Row) (hs : StateDp4 s)
    (hr : ∀ v, r.amount = some v → Dp4 v) :
    StateDp4 (replay_step s r) := by
  obtain ⟨hacc, htx⟩ := hs
  have hens : ∀ c a, lookup (ensure_account r.client s.accounts) c = some a →
      Dp4 a.available ∧ Dp4 a.held := by
    intro c a h
    by_cases hc : c = r.client
    · subst hc
      rw [lookup_ensure_self] at h
      cases h
      exact acctOr_dp4 s r.client hacc
    · rw [lookup_ensure_ne _ _ _ hc] at h
      exact hacc c a h
  cases hact : r.action with
  | DEPOSIT =>
    rw [replay_step_deposit s r hact]
    constructor
    · intro c a h
      by_cases hc : c = r.client
      · subst hc
        rw [lookup_upsert_self] at h
        cases h
        exact deposit_dp4 _ _ (acctOr_dp4 s r.client hacc).1
          (acctOr_dp4 s r.client hacc).2 hr
      · rw [lookup_upsert_ne _ _ _ _ hc, lookup_ensure_ne _ _ _ hc] at h
        exact hacc c a h
    · intro k e h
      by_cases hk : k = r.tx
      · subst hk
        rw [lookup_upsert_self] at h
        cases h
        exact hr
      · rw [lookup_upsert_ne _ _ _ _ hk] at h
        exact htx k e h
  | WITHDRAWAL =>
    rw [replay_step_withdrawal s r hact]
    constructor
    · intro c a h
      by_cases hc : c = r.client
      · subst hc
        rw [lookup_upsert_self] at h
        cases h
        exact withdraw_dp4 _ _ (acctOr_dp4 s r.client hacc).1
          (acctOr_dp4 s r.client hacc).2 hr
      · rw [lookup_upsert_ne _ _ _ _ hc, lookup_ensure_ne _ _ _ hc] at h
        exact hacc c a h
    · exact htx
  | DISPUTE =>
    rw [replay_step_dispute_like s r (by simp [Row.isDisputeLike, hact])]
    cases hl : lookup s.txs r.tx with
    | none => exact ⟨hens, htx⟩
    | some e =>
      dsimp only
      by_cases hcond : e.is_disputable = true ∧ e.client = r.client
      · rw [if_pos hcond]
        constructor
        · intro c a h
          by_cases hc : c = r.client
          · subst hc
            rw [lookup_upsert_self] at h
            cases h
            exact handle_dp4 _ _ _ (acctOr_dp4 s r.client hacc).1
              (acctOr_dp4 s r.client hacc).2 (htx _ _ hl)
          · rw [lookup_upsert_ne _ _ _ _ hc, lookup_ensure_ne _ _ _ hc] at h
            exact hacc c a h
        · intro k e2 h
          by_cases hk : k = r.tx
          · subst hk
            rw [lookup_upsert_self] at h
            cases h
            rw [handle_amount]
            exact htx _ _ hl
          · rw [lookup_upsert_ne _ _ _ _ hk] at h
            exact htx k e2 h
      · rw [if_neg hcond]
        exact ⟨hens, htx⟩
  | RESOLVE =>
    rw [replay_step_dispute_like s r (by simp [Row.isDisputeLike, hact])]
    cases hl : lookup s.txs r.tx with
    | none => exact ⟨hens, htx⟩
    | some e =>
      dsimp only
      by_cases hcond : e.is_disputable = true ∧ e.client = r.client
      · rw [if_pos hcond]
        constructor
        · intro c a h
          by_cases hc : c = r.client
          · subst hc
            rw [lookup_upsert_self] at h
            cases h
            exact handle_dp4 _ _ _ (acctOr_dp4 s r.client hacc).1
              (acctOr_dp4 s r.client hacc).2 (htx _ _ hl)
          · rw [lookup_upsert_ne _ _ _ _ hc, lookup_ensure_ne _ _ _ hc] at h
            exact hacc c a h
        · intro k e2 h
          by_cases hk : k = r.tx
          · subst hk
            rw [lookup_upsert_self] at h
            cases h
            rw [handle_amount]
            exact htx _ _ hl
          · rw [lookup_upsert_ne _ _ _ _ hk] at h
            exact htx k e2 h
      · rw [if_neg hcond]
        exact ⟨hens, htx⟩
  | CHARGEBACK =>
    rw [replay_step_dispute_like s r (by simp [Row.isDisputeLike, hact])]
    cases hl : lookup s.txs r.tx with
    | none => exact ⟨hens, htx⟩
    | some e =>
      dsimp only
      by_cases hcond : e.is_disputable = true ∧ e.client = r.client
      · rw [if_pos hcond]
        constructor
        · intro c a h
          by_cases hc : c = r.client
          · subst hc
            rw [lookup_upsert_self] at h
            cases h
            exact handle_dp4 _ _ _ (acctOr_dp4 s r.client hacc).1
              (acctOr_dp4 s r.client hacc).2 (htx _ _ hl)
          · rw [lookup_upsert_ne _ _ _ _ hc, lookup_ensure_ne _ _ _ hc] at h
            exact hacc c a h
        · intro k e2 h
          by_cases hk : k = r.tx
          · subst hk
            rw [lookup_upsert_self] at h
            cases h
            rw [handle_amount]
            exact htx _ _ hl
          · rw [lookup_upsert_ne _ _ _ _ hk] at h
            exact htx k e2 h
      · rw [if_neg hcond]
        exact ⟨hens, htx⟩

theorem replay_dp4 (rows : List Row) :
    ∀ s : EngineState, StateDp4 s →
      (∀ r ∈ rows, ∀ v, r.amount = some v → Dp4 v) →
      StateDp4 (replay rows s) := by
  induction rows with
  | nil => intro s hs _; exact hs
  | cons r t ih =>
    intro s hs hdp
    exact ih (replay_step s r)
      (replay_step_dp4 s r hs (hdp r (by simp)))
      (fun q hq => hdp q (by simp [hq]))

def c8Rows : List Row :=
  [depositRow 1 1 (1/20000), depositRow 1 2 (1/20000), disputeRow 1 2]

def c8Acct : Account :=
  { client := 1, available := 1/20000, held := 1/20000, is_locked := false }

/-- C8 counterexample: with two deposits of 0.00005 and one of them
disputed, available and held each round (banker's rounding) to 0 while
their sum 0.0001 rounds to 0.0001, so the emitted total differs from the
sum of the emitted available and held. -/
theorem emitted_total_rounding_mismatch :
    lookup (balance_accounts c8Rows).accounts 1 = some c8Acct ∧
    (serializeAccount c8Acct).available = 0 ∧
    (serializeAccount c8Acct).held = 0 ∧
    (serializeAccount c8Acct).total = 1/10000 ∧
    (1 : ℚ)/10000 ≠ 0 + 0 :=
  ⟨by with_unfolding_all rfl,
   by with_unfolding_all rfl,
   by with_unfolding_all rfl,
   by with_unfolding_all rfl,
   by norm_num⟩

/-- C8 amended: when every input amount has at most 4 fractional digits (is
a multiple of 0.0001) — the precision the spec assigns to deposit and
withdrawal inputs — the emitted total of every final account exactly equals
the sum of its emitted available and emitted held. -/
theorem emitted_total_eq_available_plus_held (rows : List Row)
    (hdp : ∀ r ∈ rows, ∀ v, r.amount = some v → Dp4 v) (c : Nat) (a : Account)
    (ha : lookup (balance_accounts rows).accounts c = some a) :
    (serializeAccount a).total =
      (serializeAccount a).available + (serializeAccount a).held := by
  have hinit : StateDp4 { accounts := [], txs := [] } :=
    ⟨fun c a h => by simp [lookup] at h, fun k e h => by simp [lookup] at h⟩
  have hinv := replay_dp4 rows { accounts := [], txs := [] } hinit hdp
  obtain ⟨h1, h2⟩ := hinv.1 c a ha
  simp only [serializeAccount, Account.total]
  rw [round_dp4_of_dp4 _ h1, round_dp4_of_dp4 _ h2,
    round_dp4_of_dp4 _ (dp4_add _ _ h1 h2)]

def halfAcct : Account :=
  { client := 1, available := 1/2, held := 0, is_locked := false }

/-- C8 amended, witness: a single deposit of 0.5 gives an account whose
emitted total is the sum of its emitted available and held. -/
theorem emitted_total_eq_available_plus_held_witness :
    (∀ r ∈ [depositRow 1 1 (1/2)], ∀ v, r.amount = some v → Dp4 v) ∧
    (serializeAccount halfAcct).total =
      (serializeAccount halfAcct).available + (serializeAccount halfAcct).held := by
  have hdp : ∀ r ∈ [depositRow 1 1 (1/2)], ∀ v, r.amount = some v → Dp4 v := by
    intro r hr v hv
    simp only [List.mem_singleton] at hr
    subst hr
    simp only [depositRow, Option.some.injEq] at hv
    exact ⟨5000, by rw [← hv]; norm_num⟩
  exact ⟨hdp,
    emitted_total_eq_available_plus_held [depositRow 1 1 (1/2)] hdp 1
      halfAcct (of_decide_eq_true (by with_unfolding_all rfl))⟩

/-! ### C4 -/

theorem hold_held (a : Account) (amt : Option ℚ) :
    (a.hold amt).held = a.held + amt.getD 0 := by
  cases amt <;> simp [Account.hold]

theorem release_held (a : Account) (amt : Option ℚ) :
    (a.release amt).held = a.held - amt.getD 0 := by
  cases amt <;> simp [Account.release]

theorem chargeback_held (a : Account) (amt : Option ℚ) :
    (a.chargeback amt).held = a.held - amt.getD 0 := by
  cases amt <;> simp [Account.chargeback]

theorem handle_client (a : Account) (e : Tx) (act : TxAction) :
    (handle_dispute_action a e act).2.client = e.client := by
  cases act <;> by_cases hd : e.is_disputed <;>
    simp [handle_dispute_action, hd]

theorem contrib_of_not_disputed (e : Tx) (c : Nat) (h : e.is_disputed = false) :
    contrib e c = 0 := by
  simp [contrib, h]

theorem contrib_of_client_ne (e : Tx) (c : Nat) (h : e.client ≠ c) :
    contrib e c = 0 := by
  simp [contrib, h]

/-- How one dispute transition moves an account's held funds: exactly by
the change of its entry's contribution to the disputed sum. -/
theorem handle_held_change (a : Account) (e : Tx) (act : TxAction) :
    (handle_dispute_action a e act).1.held =
      a.held + (contrib (handle_dispute_action a e act).2 e.client -
        contrib e e.client) := by
  cases act <;> by_cases hd : e.is_disputed <;>
    simp [handle_dispute_action, hd, contrib, hold_held, release_held,
      chargeback_held, amtOf, sub_eq_add_neg]

theorem heldSum_upsert_found (m : List (Nat × Tx)) (k : Nat) (e v : Tx)
    (c : Nat) (h : lookup m k = some e) :
    heldSum (upsert m k v) c = heldSum m c - contrib e c + contrib v c := by
  induction m with
  | nil => simp [lookup] at h
  | cons p t ih =>
    obtain ⟨a, b⟩ := p
    by_cases hk : k = a
    · subst hk
      simp [lookup] at h
      subst h
      simp [upsert, heldSum]
      ring
    · simp [lookup, hk] at h
      simp [upsert, hk, heldSum] at ih ⊢
      rw [ih h]
      ring

theorem heldSum_upsert_fresh (m : List (Nat × Tx)) (k : Nat) (v : Tx)
    (c : Nat) (h : lookup m k = none) :
    heldSum (upsert m k v) c = heldSum m c + contrib v c := by
  induction m with
  | nil => simp [upsert, heldSum]
  | cons p t ih =>
    obtain ⟨a, b⟩ := p
    by_cases hk : k = a
    · subst hk
      simp [lookup] at h
    · simp [lookup, hk] at h
      simp [upsert, hk, heldSum] at ih ⊢
      rw [ih h]
      ring

theorem contrib_nonneg (e : Tx) (c : Nat) (h : 0 ≤ amtOf e) : 0 ≤ contrib e c := by
  unfold contrib
  split
  · exact h
  · exact le_refl 0

theorem heldSum_nonneg (m : List (Nat × Tx)) (c : Nat)
    (h : ∀ p ∈ m, 0 ≤ amtOf p.2) : 0 ≤ heldSum m c := by
  induction m with
  | nil => simp [heldSum]
  | cons p t ih =>
    simp only [heldSum, List.map_cons, List.sum_cons]
    have h1 : 0 ≤ contrib p.2 c := contrib_nonneg _ _ (h p (by simp))
    have h2 : 0 ≤ heldSum t c := ih (fun q hq => h q (by simp [hq]))
    simp only [heldSum] at h2
    exact add_nonneg h1 h2

theorem lookup_mem {α : Type} (m : List (Nat × α)) (k : Nat) (v : α)
    (h : lookup m k = some v) : (k, v) ∈ m := by
  induction m with
  | nil => simp [lookup] at h
  | cons p t ih =>
    obtain ⟨a, b⟩ := p
    by_cases hk : k = a
    · subst hk
      simp [lookup] at h
      simp [h]
    · simp [lookup, hk] at h
      simp [ih h]

theorem mem_upsert {α : Type} (m : List (Nat × α)) (k : Nat) (v : α)
    (q : Nat × α) (h : q ∈ upsert m k v) : q ∈ m ∨ q = (k, v) := by
  induction m with
  | nil =>
    simp [upsert] at h
    simp [h]
  | cons p t ih =>
    obtain ⟨a, b⟩ := p
    by_cases hk : k = a
    · subst hk
      simp [upsert] at h
      rcases h with h | h
      · exact Or.inr h
      · exact Or.inl (by simp [h])
    · simp [upsert, hk] at h
      rcases h with h | h
      · exact Or.inl (by simp [h])
      · rcases ih h with h2 | h2
        · exact Or.inl (by simp [h2])
        · exact Or.inr h2

theorem amtOf_toTx (r : Row) : amtOf r.toTx = r.amount.getD 0 := rfl

theorem contrib_toTx (r : Row) (c : Nat) : contrib r.toTx c = 0 :=
  contrib_of_not_disputed _ _ rfl

theorem heldOf_upsert_ensure (A : List (Nat × Account)) (c0 : Nat)
    (a2 : Account) (c : Nat) :
    heldOf (upsert (ensure_account c0 A) c0 a2) c =
      if c = c0 then a2.held else heldOf A c := by
  by_cases hc : c = c0
  · subst hc
    rw [if_pos rfl, heldOf_eq_some _ _ _ (lookup_upsert_self _ _ _)]
  · rw [if_neg hc]
    apply heldOf_congr
    rw [lookup_upsert_ne _ _ _ _ hc, lookup_ensure_ne _ _ _ hc]

/-- The per-client held funds always match the sum of the actively disputed
indexed amounts, and all indexed amounts are non-negative. -/
def HeldInv (s : EngineState) : Prop :=
  (∀ c, heldOf s.accounts c = heldSum s.txs c) ∧
  (∀ p ∈ s.txs, 0 ≤ amtOf p.2)

theorem replay_step_held_inv_dispute_like (s : EngineState) (r : Row)
    (hinv : ∀ c, heldOf s.accounts c = heldSum s.txs c)
    (hpos : ∀ p ∈ s.txs, 0 ≤ amtOf p.2)
    (hdl : r.isDisputeLike = true) :
    HeldInv (replay_step s r) := by
  rw [replay_step_dispute_like s r hdl]
  cases hl : lookup s.txs r.tx with
  | none =>
    refine And.intro (fun c => ?_) hpos
    dsimp only
    rw [heldOf_ensure]
    exact hinv c
  | some e =>
    dsimp only
    by_cases hcond : e.is_disputable = true ∧ e.client = r.client
    · rw [if_pos hcond]
      have h1 : ∀ c, heldOf
          (upsert (ensure_account r.client s.accounts) r.client
            (handle_dispute_action (acctOr s.accounts r.client) e r.action).1)
          c = heldSum
          (upsert s.txs r.tx
            (handle_dispute_action (acctOr s.accounts r.client) e r.action).2)
          c := by
        intro c
        rw [heldOf_upsert_ensure, heldSum_upsert_found _ _ e _ _ hl]
        by_cases hc : c = r.client
        · subst hc
          rw [if_pos rfl, handle_held_change, acctOr_held, hinv, hcond.2]
          ring
        · rw [if_neg hc,
            contrib_of_client_ne e c
              (by rw [hcond.2]; exact fun hcc => hc hcc.symm),
            contrib_of_client_ne _ c
              (by rw [handle_client, hcond.2]; exact fun hcc => hc hcc.symm),
            hinv c]
          ring
      have h2 : ∀ p ∈ upsert s.txs r.tx
          (handle_dispute_action (acctOr s.accounts r.client) e r.action).2,
          0 ≤ amtOf p.2 := by
        intro p hp
        rcases mem_upsert _ _ _ _ hp with h | h
        · exact hpos p h
        · rw [h]
          have hae : amtOf
              (handle_dispute_action (acctOr s.accounts r.client) e r.action).2 =
              amtOf e := by
            unfold amtOf
            rw [handle_amount]
          show 0 ≤ amtOf
            (handle_dispute_action (acctOr s.accounts r.client) e r.action).2
          rw [hae]
          exact hpos (r.tx, e) (lookup_mem _ _ _ hl)
      exact And.intro h1 h2
    · rw [if_neg hcond]
      refine And.intro (fun c => ?_) hpos
      dsimp only
      rw [heldOf_ensure]
      exact hinv c

theorem replay_step_held_inv (s : EngineState) (r : Row) (hs : HeldInv s)
    (hfresh : r.isDeposit = true → lookup s.txs r.tx = none)
    (hamt : ∀ v, r.amount = some v → 0 ≤ v) :
    HeldInv (replay_step s r) := by
  obtain ⟨hinv, hpos⟩ := hs
  have hamt2 : 0 ≤ r.amount.getD 0 := by
    cases hv : r.amount with
    | none => exact le_refl 0
    | some v =>
      rw [Option.getD_some]
      exact hamt v hv
  cases hact : r.action with
  | DEPOSIT =>
    have hfr := hfresh (by simp [Row.isDeposit, hact])
    rw [replay_step_deposit s r hact]
    have h1 : ∀ c, heldOf
        (upsert (ensure_account r.client s.accounts) r.client
          ((acctOr s.accounts r.client).deposit r.amount)) c =
        heldSum (upsert s.txs r.tx r.toTx) c := by
      intro c
      rw [heldOf_upsert_ensure, heldSum_upsert_fresh _ _ _ _ hfr,
        contrib_toTx, add_zero]
      by_cases hc : c = r.client
      · rw [if_pos hc, deposit_held, acctOr_held, hc]
        exact hinv r.client
      · rw [if_neg hc]
        exact hinv c
    have h2 : ∀ p ∈ upsert s.txs r.tx r.toTx, 0 ≤ amtOf p.2 := by
      intro p hp
      rcases mem_upsert _ _ _ _ hp with h | h
      · exact hpos p h
      · rw [h]
        show 0 ≤ amtOf r.toTx
        rw [amtOf_toTx]
        exact hamt2
    exact And.intro h1 h2
  | WITHDRAWAL =>
    rw [replay_step_withdrawal s r hact]
    have h1 : ∀ c, heldOf
        (upsert (ensure_account r.client s.accounts) r.client
          ((acctOr s.accounts r.client).withdraw r.amount)) c =
        heldSum s.txs c := by
      intro c
      rw [heldOf_upsert_ensure]
      by_cases hc : c = r.client
      · rw [if_pos hc, withdraw_held, acctOr_held, hc]
        exact hinv r.client
      · rw [if_neg hc]
        exact hinv c
    exact And.intro h1 hpos
  | DISPUTE =>
    exact replay_step_held_inv_dispute_like s r hinv hpos
      (by simp [Row.isDisputeLike, hact])
  | RESOLVE =>
    exact replay_step_held_inv_dispute_like s r hinv hpos
      (by simp [Row.isDisputeLike, hact])
  | CHARGEBACK =>
    exact replay_step_held_inv_dispute_like s r hinv hpos
      (by simp [Row.isDisputeLike, hact])

theorem depositIds_cons_deposit (r : Row) (t : List Row)
    (h : r.isDeposit = true) : depositIds (r :: t) = r.tx :: depositIds t := by
  simp [depositIds, h]

theorem depositIds_cons_not (r : Row) (t : List Row)
    (h : r.isDeposit = false) : depositIds (r :: t) = depositIds t := by
  simp [depositIds, h]

theorem replay_step_txs_preserve_none_dl (s : EngineState) (r : Row) (k : Nat)
    (hnone : lookup s.txs k = none) (hdl : r.isDisputeLike = true) :
    lookup (replay_step s r).txs k = none := by
  rw [replay_step_dispute_like s r hdl]
  cases hl : lookup s.txs r.tx with
  | none => exact hnone
  | some e =>
    dsimp only
    by_cases hcond : e.is_disputable = true ∧ e.client = r.client
    · rw [if_pos hcond]
      have hk : k ≠ r.tx := by
        rintro rfl
        rw [hnone] at hl
        exact Option.noConfusion hl
      dsimp only
      rw [lookup_upsert_ne _ _ _ _ hk]
      exact hnone
    · rw [if_neg hcond]
      exact hnone

theorem replay_step_txs_preserve_none (s : EngineState) (r : Row) (k : Nat)
    (hnone : lookup s.txs k = none)
    (hne : r.isDeposit = true → k ≠ r.tx) :
    lookup (replay_step s r).txs k = none := by
  cases hact : r.action with
  | DEPOSIT =>
    rw [replay_step_deposit s r hact]
    dsimp only
    rw [lookup_upsert_ne _ _ _ _ (hne (by simp [Row.isDeposit, hact]))]
    exact hnone
  | WITHDRAWAL =>
    rw [replay_step_withdrawal s r hact]
    exact hnone
  | DISPUTE =>
    exact replay_step_txs_preserve_none_dl s r k hnone
      (by simp [Row.isDisputeLike, hact])
  | RESOLVE =>
    exact replay_step_txs_preserve_none_dl s r k hnone
      (by simp [Row.isDisputeLike, hact])
  | CHARGEBACK =>
    exact replay_step_txs_preserve_none_dl s r k hnone
      (by simp [Row.isDisputeLike, hact])

theorem replay_held_inv_fold (rows : List Row) :
    ∀ s : EngineState, HeldInv s →
      (∀ r ∈ rows, ∀ v, r.amount = some v → 0 ≤ v) →
      (∀ r ∈ rows, r.isDeposit = true → lookup s.txs r.tx = none) →
      (depositIds rows).Nodup →
      HeldInv (replay rows s) := by
  induction rows with
  | nil =>
    intro s hs _ _ _
    exact hs
  | cons r t ih =>
    intro s hs hamts hfresh hnodup
    have hstep := replay_step_held_inv s r hs (hfresh r (by simp))
      (hamts r (by simp))
    apply ih (replay_step s r) hstep (fun q hq => hamts q (by simp [hq]))
    · intro q hq hqd
      have hqnone : lookup s.txs q.tx = none :=
        hfresh q (List.mem_cons_of_mem r hq) hqd
      cases hrd : r.isDeposit with
      | true =>
        have hne : q.tx ≠ r.tx := by
          rw [depositIds_cons_deposit r t hrd] at hnodup
          have hmem : q.tx ∈ depositIds t :=
            List.mem_map_of_mem Row.tx (List.mem_filter.mpr ⟨hq, hqd⟩)
          intro he
          rw [he] at hmem
          exact (List.nodup_cons.mp hnodup).1 hmem
        exact replay_step_txs_preserve_none s r q.tx hqnone (fun _ => hne)
      | false =>
        exact replay_step_txs_preserve_none s r q.tx hqnone
          (fun hcon => absurd hcon (by simp [hrd]))
    · cases hrd : r.isDeposit with
      | true =>
        rw [depositIds_cons_deposit r t hrd] at hnodup
        exact (List.nodup_cons.mp hnodup).2
      | false =>
        rw [depositIds_cons_not r t hrd] at hnodup
        exact hnodup

theorem dwIds_append (p q : List Row) :
    dwIds (p ++ q) = dwIds p ++ dwIds q := by
  simp [dwIds, List.filter_append]

theorem filter_deposit_sublist (p : List Row) :
    (p.filter Row.isDeposit).Sublist
      (p.filter (fun r => r.isDeposit || r.isWithdrawal)) := by
  induction p with
  | nil => simp
  | cons r t ih =>
    by_cases h : r.isDeposit = true
    · rw [List.filter_cons_of_pos h, List.filter_cons_of_pos (by simp [h])]
      exact ih.cons₂ r
    · rw [List.filter_cons_of_neg (by simpa using h)]
      by_cases h2 : (r.isDeposit || r.isWithdrawal) = true
      · rw [@List.filter_cons_of_pos Row
          (fun r => r.isDeposit || r.isWithdrawal) r t h2]
        exact ih.cons r
      · rw [@List.filter_cons_of_neg Row
          (fun r => r.isDeposit || r.isWithdrawal) r t (by simpa using h2)]
        exact ih

theorem depositIds_sublist (p : List Row) :
    (depositIds p).Sublist (dwIds p) :=
  List.Sublist.map Row.tx (filter_deposit_sublist p)

/-- C4: when transaction ids are unique among DEPOSIT/WITHDRAWAL rows and
all amounts are non-negative, then after any processed prefix of the input,
every account's held funds equal the sum of the amounts of the ledger-index
entries of that client whose `is_disputed` flag is currently true, and are
therefore non-negative. -/
theorem held_matches_disputed_sum (rows p q : List Row)
    (hsplit : rows = p ++ q)
    (hnodup : (dwIds rows).Nodup)
    (hamts : ∀ r ∈ rows, ∀ v, r.amount = some v → 0 ≤ v)
    (c : Nat) (a : Account)
    (ha : lookup (balance_accounts p).accounts c = some a) :
    a.held = heldSum (balance_accounts p).txs c ∧ 0 ≤ a.held := by
  have hdwp : (dwIds p).Nodup := by
    rw [hsplit, dwIds_append] at hnodup
    exact List.Nodup.of_append_left hnodup
  have hdp : (depositIds p).Nodup := hdwp.sublist (depositIds_sublist p)
  have hinit : HeldInv { accounts := [], txs := [] } :=
    ⟨fun c => rfl, by intro p hp; simp at hp⟩
  have hinv := replay_held_inv_fold p { accounts := [], txs := [] } hinit
    (fun r hr => hamts r (by rw [hsplit]; exact List.mem_append_left q hr))
    (fun r _ _ => rfl) hdp
  have hheld : heldOf (balance_accounts p).accounts c =
      heldSum (balance_accounts p).txs c := hinv.1 c
  rw [heldOf_eq_some _ _ _ ha] at hheld
  refine ⟨hheld, ?_⟩
  rw [hheld]
  exact heldSum_nonneg _ _ hinv.2

def c4Rows : List Row := [depositRow 1 1 5, disputeRow 1 1]

def c4Acct : Account :=
  { client := 1, available := 0, held := 5, is_locked := false }

/-- C4 witness: after deposit 5 and its dispute, held is 5, the disputed
sum for client 1 is 5, and held is non-negative. -/
theorem held_matches_disputed_sum_witness :
    (dwIds c4Rows).Nodup ∧
    lookup (balance_accounts c4Rows).accounts 1 = some c4Acct ∧
    (c4Acct.held = heldSum (balance_accounts c4Rows).txs 1 ∧ 0 ≤ c4Acct.held) :=
  ⟨by decide,
   by with_unfolding_all rfl,
   held_matches_disputed_sum c4Rows c4Rows [] (by simp) (by decide)
     (by
       intro r hr v hv
       simp only [c4Rows, List.mem_cons, List.not_mem_nil, or_false] at hr
       rcases hr with rfl | rfl
       · simp only [depositRow, Option.some.injEq] at hv
         rw [← hv]
         norm_num
       · simp [disputeRow] at hv)
     1 c4Acct (by with_unfolding_all rfl)⟩

/-! ### C9 -/

theorem toTx_is_disputable (r : Row) : (r.toTx).is_disputable = r.isDeposit := by
  cases h : r.action <;> simp [Row.toTx, Tx.is_disputable, Row.isDeposit, h]

theorem eager_step_deposit (s : EngineState) (r : Row)
    (h : r.action = TxAction.DEPOSIT) :
    eager_step s r =
      { accounts := upsert (ensure_account r.client s.accounts) r.client
          ((acctOr s.accounts r.client).deposit r.amount),
        txs := s.txs } := by
  simp [eager_step, process_tx, Row.toTx, h, lookup_ensure_self]

theorem eager_step_withdrawal (s : EngineState) (r : Row)
    (h : r.action = TxAction.WITHDRAWAL) :
    eager_step s r =
      { accounts := upsert (ensure_account r.client s.accounts) r.client
          ((acctOr s.accounts r.client).withdraw r.amount),
        txs := s.txs } := by
  simp [eager_step, process_tx, Row.toTx, h, lookup_ensure_self]

theorem eager_step_dispute_like (s : EngineState) (r : Row)
    (h : r.isDisputeLike = true) :
    eager_step s r =
      match lookup s.txs r.tx with
      | none => { accounts := ensure_account r.client s.accounts, txs := s.txs }
      | some e =>
        if e.is_disputable = true ∧ e.client = r.client then
          { accounts := upsert (ensure_account r.client s.accounts) r.client
              (handle_dispute_action (acctOr s.accounts r.client) e r.action).1,
            txs := upsert s.txs r.tx
              (handle_dispute_action (acctOr s.accounts r.client) e r.action).2 }
        else { accounts := ensure_account r.client s.accounts, txs := s.txs } := by
  cases hl : lookup s.txs r.tx with
  | none =>
    cases hr : r.action <;>
      simp_all [eager_step, process_tx, Row.toTx, Row.isDisputeLike,
        lookup_ensure_self, hl]
  | some e =>
    cases hr : r.action <;>
      simp_all [eager_step, process_tx, Row.toTx, Row.isDisputeLike,
        lookup_ensure_self, hl]

instance noForwardRefDecidable : (rows : List Row) → Decidable (NoForwardRef rows)
  | [] => isTrue trivial
  | r :: t =>
    letI := noForwardRefDecidable t
    inferInstanceAs
      (Decidable ((r.isDisputeLike = true → r.tx ∉ depositIds t) ∧ NoForwardRef t))

theorem insertDeposits_cons (r : Row) (rows : List Row) (m : List (Nat × Tx)) :
    insertDeposits (r :: rows) m =
      insertDeposits rows (if r.isDeposit then upsert m r.tx r.toTx else m) := rfl

theorem lookup_insertDeposits (rows : List Row) :
    ∀ (m : List (Nat × Tx)) (t : Nat), t ∉ depositIds rows →
      lookup (insertDeposits rows m) t = lookup m t := by
  induction rows with
  | nil =>
    intro m t _
    rfl
  | cons r rest ih =>
    intro m t ht
    rw [insertDeposits_cons]
    cases hrd : r.isDeposit with
    | true =>
      rw [depositIds_cons_deposit r rest hrd] at ht
      simp only [List.mem_cons, not_or] at ht
      rw [if_pos rfl, ih _ t ht.2, lookup_upsert_ne _ _ _ _ ht.1]
    | false =>
      rw [depositIds_cons_not r rest hrd] at ht
      rw [if_neg (by simp)]
      exact ih m t ht

theorem lookup_isSome_of_mem_keys {α : Type} (m : List (Nat × α)) (k : Nat)
    (h : k ∈ keys m) : ∃ v, lookup m k = some v := by
  induction m with
  | nil => simp [keys_nil] at h
  | cons p t ih =>
    obtain ⟨a, b⟩ := p
    by_cases hk : k = a
    · exact ⟨b, by simp [lookup, hk]⟩
    · rw [keys_cons] at h
      simp only [List.mem_cons] at h
      rcases h with h | h
      · exact absurd h hk
      · obtain ⟨v, hv⟩ := ih h
        exact ⟨v, by simp [lookup, hk, hv]⟩

theorem mem_keys_upsert_of_mem {α : Type} (m : List (Nat × α)) (k : Nat)
    (v : α) (k' : Nat) (h : k' ∈ keys m) : k' ∈ keys (upsert m k v) := by
  by_cases hk : k ∈ keys m
  · rw [keys_upsert_of_mem _ _ _ hk]
    exact h
  · rw [keys_upsert_of_not_mem _ _ _ hk]
    exact List.mem_append_left _ h

theorem insertDeposits_upsert (rows : List Row) :
    ∀ (m : List (Nat × Tx)) (t : Nat) (v : Tx), t ∈ keys m →
      t ∉ depositIds rows →
      insertDeposits rows (upsert m t v) = upsert (insertDeposits rows m) t v := by
  induction rows with
  | nil =>
    intro m t v _ _
    rfl
  | cons r rest ih =>
    intro m t v hmem ht
    rw [insertDeposits_cons, insertDeposits_cons]
    cases hrd : r.isDeposit with
    | true =>
      rw [depositIds_cons_deposit r rest hrd] at ht
      simp only [List.mem_cons, not_or] at ht
      rw [if_pos rfl, if_pos rfl]
      obtain ⟨w, hw⟩ := lookup_isSome_of_mem_keys m t hmem
      rw [upsert_upsert_comm m t r.tx v r.toTx w hw ht.1]
      exact ih _ t v (mem_keys_upsert_of_mem _ _ _ _ hmem) ht.2
    | false =>
      rw [depositIds_cons_not r rest hrd] at ht
      rw [if_neg (by simp), if_neg (by simp)]
      exact ih m t v hmem ht

theorem eager_core_dl_step (s : EngineState) (r : Row) (t : List Row)
    (hdl : r.isDisputeLike = true) (hnr : r.tx ∉ depositIds t) :
    eager_step { accounts := s.accounts, txs := insertDeposits (r :: t) s.txs } r =
      { accounts := (replay_step s r).accounts,
        txs := insertDeposits t (replay_step s r).txs } := by
  have hrd : r.isDeposit = false := by
    cases hact : r.action <;>
      simp_all [Row.isDeposit, Row.isDisputeLike]
  have hids : insertDeposits (r :: t) s.txs = insertDeposits t s.txs := by
    rw [insertDeposits_cons, if_neg (by simp [hrd])]
  rw [hids, eager_step_dispute_like _ r hdl, replay_step_dispute_like s r hdl]
  dsimp only
  rw [lookup_insertDeposits t s.txs r.tx hnr]
  cases hl : lookup s.txs r.tx with
  | none => rfl
  | some e =>
    dsimp only
    by_cases hcond : e.is_disputable = true ∧ e.client = r.client
    · rw [if_pos hcond, if_pos hcond]
      dsimp only
      rw [insertDeposits_upsert t s.txs r.tx _
        (mem_keys_of_lookup _ _ _ hl) hnr]
    · rw [if_neg hcond, if_neg hcond]

/-- Replaying with an eagerly prebuilt index coincides with lazy replay,
provided no dispute row references a deposit that appears later. -/
theorem eager_core (rows : List Row) :
    ∀ s : EngineState, NoForwardRef rows →
      rows.foldl eager_step
        { accounts := s.accounts, txs := insertDeposits rows s.txs } =
      replay rows s := by
  induction rows with
  | nil =>
    intro s _
    rfl
  | cons r t ih =>
    intro s hnf
    obtain ⟨hr, hnf2⟩ := hnf
    show t.foldl eager_step (eager_step
      { accounts := s.accounts, txs := insertDeposits (r :: t) s.txs } r) =
      replay t (replay_step s r)
    cases hact : r.action with
    | DEPOSIT =>
      have hrd : r.isDeposit = true := by simp [Row.isDeposit, hact]
      have hstep : eager_step
          { accounts := s.accounts, txs := insertDeposits (r :: t) s.txs } r =
          { accounts := (replay_step s r).accounts,
            txs := insertDeposits t (replay_step s r).txs } := by
        rw [eager_step_deposit _ r hact, replay_step_deposit s r hact]
        dsimp only
        rw [insertDeposits_cons, if_pos hrd]
      rw [hstep]
      exact ih (replay_step s r) hnf2
    | WITHDRAWAL =>
      have hrd : r.isDeposit = false := by simp [Row.isDeposit, hact]
      have hstep : eager_step
          { accounts := s.accounts, txs := insertDeposits (r :: t) s.txs } r =
          { accounts := (replay_step s r).accounts,
            txs := insertDeposits t (replay_step s r).txs } := by
        rw [eager_step_withdrawal _ r hact, replay_step_withdrawal s r hact]
        dsimp only
        rw [insertDeposits_cons, if_neg (by simp [hrd])]
      rw [hstep]
      exact ih (replay_step s r) hnf2
    | DISPUTE =>
      rw [eager_core_dl_step s r t (by simp [Row.isDisputeLike, hact])
        (hr (by simp [Row.isDisputeLike, hact]))]
      exact ih (replay_step s r) hnf2
    | RESOLVE =>
      rw [eager_core_dl_step s r t (by simp [Row.isDisputeLike, hact])
        (hr (by simp [Row.isDisputeLike, hact]))]
      exact ih (replay_step s r) hnf2
    | CHARGEBACK =>
      rw [eager_core_dl_step s r t (by simp [Row.isDisputeLike, hact])
        (hr (by simp [Row.isDisputeLike, hact]))]
      exact ih (replay_step s r) hnf2

/-- C9: when deposit transaction ids are unique and no dispute row
references a deposit that appears later in the input, building the ledger
index lazily (as the code does) and eagerly (a prepass inserting all
deposits before replay) produce the same final account table. -/
theorem lazy_eager_same_accounts (rows : List Row)
    (hnodup : (depositIds rows).Nodup) (hnf : NoForwardRef rows) :
    (eager_balance_accounts rows).accounts = (balance_accounts rows).accounts :=
  congrArg EngineState.accounts
    (eager_core rows { accounts := [], txs := [] } hnf)

def c9Rows : List Row := [depositRow 1 1 1, disputeRow 1 1]

/-- C9 witness: deposit then dispute of tx 1; both index-building
disciplines give the same account table. -/
theorem lazy_eager_same_accounts_witness :
    (depositIds c9Rows).Nodup ∧ NoForwardRef c9Rows ∧
    (eager_balance_accounts c9Rows).accounts =
      (balance_accounts c9Rows).accounts :=
  ⟨by decide, by decide,
   lazy_eager_same_accounts c9Rows (by decide) (by decide)⟩

end TxEngine
